import Mathlib

/-!
Shallow embedding of the `imi` S-expression interpreter (src/main.rs):
tokenizer, recursive-descent parser, environment and tree-walking
evaluator with the native built-ins `+` and `-`.

Modelling decisions:
* Strings are `List Char`; Rust `String`/`&str` values are embedded via
  `String.toList` of the corresponding literal.
* Rust `f64` values are modelled exactly, with no rounding: a number is
  either a finite rational (held as a normalized fraction `Q`), an
  infinity with a sign, or NaN.  Every computation appearing in the
  claims stays on small integers, where IEEE double arithmetic is exact,
  so the abstraction is faithful there.
* The two Rust function pointers stored in `Expr::Func` are
  defunctionalized into the two-element enumeration `NativeFn`; these are
  the only `fn` values the program ever constructs.
* `HashMap<String, Expr>` becomes an association list looked up from the
  front; the two keys inserted by `default_env` are distinct, so insert
  order semantics are irrelevant.
* The `while let` loop of `read_list` and its mutual recursion with
  `parse` terminate because `parse` always consumes at least one token,
  a fact that is itself one of the claims; the embedding makes the
  recursion structural on an explicit fuel argument, and proves that
  `2 * tokens.length + 1` fuel is always sufficient, so the fueled
  wrapper `parse` is extensionally the Rust function.
-/

namespace Imi

/-- Exact rational value of a finite double, kept as a fraction
normalized by dividing out the gcd (all construction goes through
`Q.norm`, so structural equality is value equality). -/
structure Q where
  num : Int
  den : Nat
deriving DecidableEq, Repr

/-- Normalized fraction `n / d` (for `d ≠ 0`). -/
def Q.norm (n : Int) (d : Nat) : Q :=
  let g := Nat.gcd n.natAbs d
  ⟨n / g, d / g⟩

/-- Integer as an exact double value. -/
def Q.ofInt (n : Int) : Q := ⟨n, 1⟩

/-- Exact addition of finite double values. -/
def Q.add (a b : Q) : Q :=
  Q.norm (a.num * (b.den : Int) + b.num * (a.den : Int)) (a.den * b.den)

/-- Exact subtraction of finite double values. -/
def Q.sub (a b : Q) : Q :=
  Q.norm (a.num * (b.den : Int) - b.num * (a.den : Int)) (a.den * b.den)

/-- Model of an `f64` value: finite (exact, unrounded), signed infinity
(`neg = true` for negative infinity), or NaN. -/
inductive F where
  | finite : Q → F
  | infinite (neg : Bool) : F
  | nan : F
deriving DecidableEq, Repr

/-- Addition on the `f64` model: NaN propagates, opposite infinities
give NaN, an infinity absorbs finite values, finite values add exactly. -/
def F.add : F → F → F
  | .nan, _ => .nan
  | _, .nan => .nan
  | .infinite b1, .infinite b2 => if b1 = b2 then .infinite b1 else .nan
  | .infinite b, .finite _ => .infinite b
  | .finite _, .infinite b => .infinite b
  | .finite a, .finite b => .finite (a.add b)

/-- Subtraction on the `f64` model, mirroring `F.add`. -/
def F.sub : F → F → F
  | .nan, _ => .nan
  | _, .nan => .nan
  | .infinite b1, .infinite b2 => if b1 = b2 then .nan else .infinite b1
  | .infinite b, .finite _ => .infinite b
  | .finite _, .infinite b => .infinite (!b)
  | .finite a, .finite b => .finite (a.sub b)

/-- Shorthand for the finite double holding an integer. -/
def F.ofInt (n : Int) : F := .finite (Q.ofInt n)

/-- The native function pointers the program constructs: exactly the two
closures registered by `default_env` (defunctionalized `Expr::Func`
payload). -/
inductive NativeFn where
  | add
  | sub
deriving DecidableEq, Repr

/-- The `Expr` enum of src/main.rs. -/
inductive Expr where
  | number : F → Expr
  | symbol : List Char → Expr
  | list : List Expr → Expr
  | func : NativeFn → Expr

/-- The `Error` enum of src/main.rs: a single `Reason` variant. -/
inductive Error where
  | reason : List Char → Error
deriving DecidableEq, Repr

/-- The `Env` struct: optional boxed parent and a map of bindings
(modelled as an association list). -/
inductive Env where
  | mk : Option Env → List (List Char × Expr) → Env

/-- Field accessor `env.parent`. -/
def Env.parent : Env → Option Env
  | .mk p _ => p

/-- Field accessor `env.bindings`. -/
def Env.bindings : Env → List (List Char × Expr)
  | .mk _ b => b

/-- Map lookup `bindings.get(&s)` on the association list. -/
def lookupB : List (List Char × Expr) → List Char → Option Expr
  | [], _ => none
  | (k, v) :: rest, s => if k = s then some v else lookupB rest s

/-- Body of the `+` closure: `let mut sum = 0.0; for arg in args { ... }`,
with `sum` threaded as an accumulator. -/
def addGo : F → List Expr → Except Error Expr
  | sum, [] => .ok (.number sum)
  | sum, .number n :: rest => addGo (sum.add n) rest
  | _, _ => .error (.reason "+ expects numbers".toList)

/-- The `+` closure registered by `default_env`. -/
def addFn (args : List Expr) : Except Error Expr :=
  addGo (.finite (Q.ofInt 0)) args

/-- Loop of the `-` closure: `for arg in args[1..] { sum -= n }`. -/
def subGo : F → List Expr → Except Error Expr
  | sum, [] => .ok (.number sum)
  | sum, .number n :: rest => subGo (sum.sub n) rest
  | _, _ => .error (.reason "- expects numbers".toList)

/-- The `-` closure registered by `default_env`: `args.get(0)` must be a
Number (covers the empty-argument case), then the loop subtracts the
rest. -/
def subFn : List Expr → Except Error Expr
  | .number n :: rest => subGo n rest
  | _ => .error (.reason "- expects numbers".toList)

/-- Application of a defunctionalized native function pointer. -/
def applyFn : NativeFn → List Expr → Except Error Expr
  | .add, args => addFn args
  | .sub, args => subFn args

/-- The `default_env` function: root environment (no parent) binding
`+` and `-` to their native functions. -/
def default_env : Env :=
  .mk none [("+".toList, .func .add), ("-".toList, .func .sub)]

/-- One character of `s.replace('(', " ( ").replace(')', " ) ")`. -/
def padChar (c : Char) : List Char :=
  if c = '(' then [' ', '(', ' ']
  else if c = ')' then [' ', ')', ' ']
  else [c]

/-- The double `replace` of `tokenize`: space-pad every parenthesis. -/
def pad : List Char → List Char
  | [] => []
  | c :: cs => padChar c ++ pad cs

/-- Accumulator pass of `split_whitespace`: `acc` holds the reversed
characters of the token being built. -/
def splitWsAux : List Char → List Char → List (List Char)
  | [], acc => if acc.isEmpty then [] else [acc.reverse]
  | c :: cs, acc =>
    if c.isWhitespace then
      if acc.isEmpty then splitWsAux cs [] else acc.reverse :: splitWsAux cs []
    else splitWsAux cs (c :: acc)

/-- Rust `split_whitespace`: split on runs of whitespace, discarding
empty fragments (whitespace is modelled by `Char.isWhitespace`; the
claims only exercise ASCII input, where this agrees with Rust). -/
def splitWs (s : List Char) : List (List Char) :=
  splitWsAux s []

/-- The `tokenize` function of src/main.rs. -/
def tokenize (s : List Char) : List (List Char) :=
  splitWs (pad s)

/-- Optional leading sign; returns (is-negative, rest). -/
def readSign : List Char → Bool × List Char
  | '+' :: cs => (false, cs)
  | '-' :: cs => (true, cs)
  | cs => (false, cs)

/-- Numeric value of an ASCII digit. -/
def digVal (c : Char) : Nat := c.toNat - '0'.toNat

/-- Longest ASCII-digit run at the front; returns (digits, rest). -/
def readDigits : List Char → List Char × List Char
  | [] => ([], [])
  | c :: cs =>
    if c.isDigit then
      let (ds, r) := readDigits cs
      (c :: ds, r)
    else ([], c :: cs)

/-- Value of a digit run read in base 10. -/
def digitsVal (ds : List Char) : Nat :=
  ds.foldl (fun a c => a * 10 + digVal c) 0

/-- Exact value of the decimal `±ds1.ds2 × 10^e`. -/
def decValue (neg : Bool) (ds1 ds2 : List Char) (e : Int) : Q :=
  let m : Int := (digitsVal ds1 * 10 ^ ds2.length + digitsVal ds2 : Nat)
  let n : Int := if neg then -m else m
  let e2 : Int := e - ds2.length
  if 0 ≤ e2 then Q.norm (n * 10 ^ e2.toNat) 1
  else Q.norm n (10 ^ (-e2).toNat)

/-- Optional exponent suffix `(e|E) Sign? Count` closing the token;
anything left over rejects the whole token. -/
def readExp (neg : Bool) (ds1 ds2 : List Char) : List Char → Option F
  | [] => some (.finite (decValue neg ds1 ds2 0))
  | c :: cs =>
    if c = 'e' ∨ c = 'E' then
      let (eneg, r1) := readSign cs
      let (eds, r2) := readDigits r1
      if eds.isEmpty ∨ ¬ r2.isEmpty then none
      else
        let e : Int := if eneg then -(digitsVal eds : Int) else (digitsVal eds : Int)
        some (.finite (decValue neg ds1 ds2 e))
    else none

/-- Rust's `str::parse::<f64>` grammar
(`Sign? ( inf | infinity | nan | Number )` with
`Number ::= Count point? Count? Exp?`, at least one mantissa digit,
`inf`, `infinity` and `nan` case-insensitive), yielding the exact
unrounded value. -/
def parseF64 (s : List Char) : Option F :=
  let (neg, r1) := readSign s
  let low := r1.map Char.toLower
  if low = "inf".toList ∨ low = "infinity".toList then some (.infinite neg)
  else if low = "nan".toList then some .nan
  else
    let (ds1, r2) := readDigits r1
    match r2 with
    | '.' :: r3 =>
      let (ds2, r4) := readDigits r3
      if ds1.isEmpty ∧ ds2.isEmpty then none
      else readExp neg ds1 ds2 r4
    | _ => if ds1.isEmpty then none else readExp neg ds1 [] r2

/-- The `read_atom` function of src/main.rs: a token is a Number when it
parses as an `f64`, otherwise a Symbol. -/
def read_atom (token : List Char) : Expr :=
  match parseF64 token with
  | some f => .number f
  | none => .symbol token

/-- Error reason used only for fuel exhaustion of the fueled parser; the
sufficiency theorem shows it never escapes through the `parse` wrapper. -/
def fuelReason : Error := .reason "insufficient fuel".toList

mutual

/-- The `parse` function of src/main.rs, made structural on a fuel
argument: split off the first token (`empty input` when there is none),
descend into `read_list` after `(`, reject a stray `)`, otherwise
consume one atom. -/
def parseF : Nat → List (List Char) → Except Error (Expr × List (List Char))
  | 0, _ => .error fuelReason
  | _ + 1, [] => .error (.reason "empty input".toList)
  | n + 1, t :: rest =>
    if t = "(".toList then
      match readListF n rest with
      | .ok (l, r) => .ok (.list l, r)
      | .error e => .error e
    else if t = ")".toList then .error (.reason "unexpected )".toList)
    else .ok (read_atom t, rest)

/-- The `read_list` loop of src/main.rs (elements accumulated by
recursion instead of a mutable vector): running out of tokens is
`could not parse list`, `)` closes the list, anything else parses one
expression and continues on the remainder. -/
def readListF : Nat → List (List Char) → Except Error (List Expr × List (List Char))
  | 0, _ => .error fuelReason
  | _ + 1, [] => .error (.reason "could not parse list".toList)
  | n + 1, t :: rest =>
    if t = ")".toList then .ok ([], rest)
    else
      match parseF n (t :: rest) with
      | .error e => .error e
      | .ok (e, rest1) =>
        match readListF n rest1 with
        | .error err => .error err
        | .ok (l, rest2) => .ok (e :: l, rest2)

end

/-- The `parse` entry point: the sufficiency theorem proves the chosen
fuel is never exhausted, so this equals the Rust function. -/
def parse (tokens : List (List Char)) : Except Error (Expr × List (List Char)) :=
  parseF (2 * tokens.length + 1) tokens

mutual

/-- The `eval` function of src/main.rs. -/
def eval : Expr → Env → Except Error Expr
  | .number n, _ => .ok (.number n)
  | .symbol s, env =>
    match lookupB env.bindings s with
    | some e => .ok e
    | none => .error (.reason ("unbound symbol: ".toList ++ s))
  | .list l, env =>
    match l with
    | [] => .error (.reason "empty list".toList)
    | f :: rest =>
      match eval f env with
      | .ok (.func fn) =>
        match evalArgs rest env with
        | .ok args => applyFn fn args
        | .error e => .error e
      | .ok _ => .error (.reason "not a function".toList)
      | .error e => .error e
  | .func f, _ => .ok (.func f)

/-- The argument pass
`rest.iter().cloned().map(|e| eval(e, env)).collect::<Result<_, _>>()`:
left-to-right, stopping at the first error. -/
def evalArgs : List Expr → Env → Except Error (List Expr)
  | [], _ => .ok []
  | e :: es, env =>
    match eval e env with
    | .ok v =>
      match evalArgs es env with
      | .ok vs => .ok (v :: vs)
      | .error err => .error err
    | .error err => .error err

end

end Imi

namespace Imi

/-! Lemmas about the built-ins. -/

/-- Folding `+` over arguments that are all Numbers. -/
theorem addGo_numbers (ns : List F) : ∀ (sum : F),
    addGo sum (ns.map Expr.number) = .ok (.number (ns.foldl F.add sum)) := by
  induction ns with
  | nil => intro sum; rfl
  | cons n ns ih => intro sum; simpa [addGo] using ih (sum.add n)

/-- Any non-Number argument makes the `+` loop fail. -/
theorem addGo_bad (args : List Expr) : ∀ (sum : F) (a : Expr), a ∈ args →
    (∀ n, a ≠ Expr.number n) →
    addGo sum args = .error (.reason "+ expects numbers".toList) := by
  induction args with
  | nil => intro _ a ha _; cases ha
  | cons x rest ih =>
    intro sum a ha hnn
    match x, ha with
    | Expr.number m, ha =>
      have ha' : a ∈ rest := by
        rcases List.mem_cons.mp ha with h | h
        · exact absurd h (hnn m)
        · exact h
      simpa [addGo] using ih (sum.add m) a ha' hnn
    | Expr.symbol s, _ => rfl
    | Expr.list l, _ => rfl
    | Expr.func f, _ => rfl

/-- Folding `-` over trailing arguments that are all Numbers. -/
theorem subGo_numbers (ns : List F) : ∀ (sum : F),
    subGo sum (ns.map Expr.number) = .ok (.number (ns.foldl F.sub sum)) := by
  induction ns with
  | nil => intro sum; rfl
  | cons n ns ih => intro sum; simpa [subGo] using ih (sum.sub n)

/-- Any non-Number trailing argument makes the `-` loop fail. -/
theorem subGo_bad (args : List Expr) : ∀ (sum : F) (a : Expr), a ∈ args →
    (∀ n, a ≠ Expr.number n) →
    subGo sum args = .error (.reason "- expects numbers".toList) := by
  induction args with
  | nil => intro _ a ha _; cases ha
  | cons x rest ih =>
    intro sum a ha hnn
    match x, ha with
    | Expr.number m, ha =>
      have ha' : a ∈ rest := by
        rcases List.mem_cons.mp ha with h | h
        · exact absurd h (hnn m)
        · exact h
      simpa [subGo] using ih (sum.sub m) a ha' hnn
    | Expr.symbol s, _ => rfl
    | Expr.list l, _ => rfl
    | Expr.func f, _ => rfl

/-- C1 counterexample: in an environment whose local bindings are empty
but whose parent binds `x` to `Number 1.0`, evaluating `Symbol x` fails
with `unbound symbol: x` instead of returning the parent's binding —
`eval` never consults the parent link. -/
theorem eval_symbol_ignores_parent :
    eval (.symbol "x".toList)
        (.mk (some (.mk none [("x".toList, .number (F.ofInt 1))])) []) =
      .error (.reason "unbound symbol: x".toList) ∧
    eval (.symbol "x".toList)
        (.mk (some (.mk none [("x".toList, .number (F.ofInt 1))])) []) ≠
      .ok (.number (F.ofInt 1)) :=
  ⟨rfl, fun h => Except.noConfusion h⟩

/-- C1 (amended): symbol lookup consults only the environment's local
bindings; for every environment that has a parent and every name absent
from the local bindings, evaluating `Symbol name` fails with
`unbound symbol: name`, whatever the parent chain binds. -/
theorem eval_symbol_local_only (p : Env) (bs : List (List Char × Expr))
    (s : List Char) (h : lookupB bs s = none) :
    eval (.symbol s) (.mk (some p) bs) =
      .error (.reason ("unbound symbol: ".toList ++ s)) := by
  simp [eval, Env.bindings, h]

/-- C1 witness: the amended theorem applied to the counterexample
environment. -/
theorem eval_symbol_local_only_witness :
    eval (.symbol "x".toList)
        (.mk (some (.mk none [("x".toList, .number (F.ofInt 1))])) []) =
      .error (.reason "unbound symbol: x".toList) :=
  eval_symbol_local_only (.mk none [("x".toList, .number (F.ofInt 1))]) [] _ rfl

end Imi

namespace Imi

/-- C3: the built-in `+` sums all its arguments into a Number (a left
fold of exact double addition starting at `0.0`), returns `Number 0.0`
on zero arguments, fails with `+ expects numbers` when any argument is
not a Number, and the round trip
`eval (parse (tokenize "(+ 1 2)")).expr default_env = Number 3.0`
holds. -/
theorem add_builtin_spec :
    (∀ ns : List F,
        addFn (ns.map Expr.number) =
          .ok (.number (ns.foldl F.add (.finite (Q.ofInt 0))))) ∧
    addFn [] = .ok (.number (.finite (Q.ofInt 0))) ∧
    (∀ (args : List Expr) (a : Expr), a ∈ args → (∀ n, a ≠ Expr.number n) →
        addFn args = .error (.reason "+ expects numbers".toList)) ∧
    (match parse (tokenize "(+ 1 2)".toList) with
      | .ok (e, _) => eval e default_env
      | .error err => .error err) = .ok (.number (F.ofInt 3)) :=
  ⟨fun ns => addGo_numbers ns _,
   rfl,
   fun args a ha hnn => addGo_bad args _ a ha hnn,
   rfl⟩

/-- C3 witness: the non-Number clause applied to the single argument
`Symbol foo`. -/
theorem add_builtin_spec_witness :
    addFn [Expr.symbol "foo".toList] =
      .error (.reason "+ expects numbers".toList) :=
  add_builtin_spec.2.2.1 [Expr.symbol "foo".toList] (Expr.symbol "foo".toList)
    (List.Mem.head _) (fun _ h => Expr.noConfusion h)

/-- C4: the built-in `-` uses its first argument as the seed and
subtracts the remaining arguments from it in order (a left fold), fails
with `- expects numbers` on zero arguments and when any argument is not
a Number, and the round trip
`eval (parse (tokenize "(- 10 1 2)")).expr default_env = Number 7.0`
holds. -/
theorem sub_builtin_spec :
    (∀ (n : F) (ns : List F),
        subFn (Expr.number n :: ns.map Expr.number) =
          .ok (.number (ns.foldl F.sub n))) ∧
    subFn [] = .error (.reason "- expects numbers".toList) ∧
    (∀ (args : List Expr) (a : Expr), a ∈ args → (∀ n, a ≠ Expr.number n) →
        subFn args = .error (.reason "- expects numbers".toList)) ∧
    (match parse (tokenize "(- 10 1 2)".toList) with
      | .ok (e, _) => eval e default_env
      | .error err => .error err) = .ok (.number (F.ofInt 7)) := by
  refine ⟨fun n ns => subGo_numbers ns n, rfl, ?_, rfl⟩
  intro args a ha hnn
  match args, ha with
  | Expr.number m :: rest, ha =>
    have ha' : a ∈ rest := by
      rcases List.mem_cons.mp ha with h | h
      · exact absurd h (hnn m)
      · exact h
    simpa [subFn] using subGo_bad rest m a ha' hnn
  | Expr.symbol s :: rest, _ => rfl
  | Expr.list l :: rest, _ => rfl
  | Expr.func f :: rest, _ => rfl

/-- C4 witness: the non-Number clause applied to `(- 10 foo)`. -/
theorem sub_builtin_spec_witness :
    subFn [Expr.number (F.ofInt 10), Expr.symbol "foo".toList] =
      .error (.reason "- expects numbers".toList) :=
  sub_builtin_spec.2.2.1 [Expr.number (F.ofInt 10), Expr.symbol "foo".toList]
    (Expr.symbol "foo".toList) (List.mem_cons_of_mem _ (List.Mem.head _))
    (fun _ h => Expr.noConfusion h)

/-- C7: `()` parses to the empty List (with no remaining tokens), and
evaluating an empty List in any environment fails with `empty list`. -/
theorem empty_list_parse_eval :
    parse (tokenize "()".toList) = .ok (.list [], []) ∧
    ∀ env : Env, eval (.list []) env = .error (.reason "empty list".toList) :=
  ⟨rfl, fun _ => rfl⟩

/-- C7 witness: the evaluation clause applied to `default_env`. -/
theorem empty_list_parse_eval_witness :
    eval (.list []) default_env = .error (.reason "empty list".toList) :=
  empty_list_parse_eval.2 default_env

/-- C9: `read_atom` classifies atoms with Rust's `f64` grammar, so
signed tokens, exponent notation and the spellings of infinity and NaN
become Numbers, not Symbols: `+1` is `1.0`, `1e3` is `1000.0`, `inf` is
positive infinity, and `nan` is the NaN Number. -/
theorem read_atom_f64_grammar :
    read_atom "+1".toList = .number (F.ofInt 1) ∧
    read_atom "1e3".toList = .number (F.ofInt 1000) ∧
    read_atom "inf".toList = .number (.infinite false) ∧
    read_atom "nan".toList = .number .nan :=
  ⟨rfl, rfl, rfl, rfl⟩

end Imi

namespace Imi

/-- Argument evaluation is fail-fast: when every element before `e`
succeeds and `e` fails, the whole pass returns `e`'s error, whatever
follows. -/
theorem evalArgs_error (es1 : List Expr) (e : Expr) (es2 : List Expr)
    (env : Env) (err : Error)
    (hok : ∀ x ∈ es1, ∃ v, eval x env = .ok v)
    (he : eval e env = .error err) :
    evalArgs (es1 ++ e :: es2) env = .error err := by
  induction es1 with
  | nil => simp [evalArgs, he]
  | cons x rest ih =>
    obtain ⟨v, hv⟩ := hok x (List.Mem.head _)
    have ih' := ih (fun y hy => hok y (List.mem_cons_of_mem _ hy))
    simp [evalArgs, hv, ih']

/-- C2: a List is evaluated as a call: an error from the first element
is propagated; a first element that evaluates to anything but a
NativeFunction gives `not a function`; an unbound Symbol fails with
`unbound symbol: ` followed by the name; and the remaining elements are
evaluated left-to-right with the first failure propagated as the call's
result. -/
theorem eval_call_spec :
    (∀ (env : Env) (f : Expr) (rest : List Expr) (err : Error),
        eval f env = .error err →
        eval (.list (f :: rest)) env = .error err) ∧
    (∀ (env : Env) (f : Expr) (rest : List Expr) (v : Expr),
        eval f env = .ok v → (∀ fn, v ≠ Expr.func fn) →
        eval (.list (f :: rest)) env =
          .error (.reason "not a function".toList)) ∧
    (∀ (env : Env) (s : List Char),
        lookupB env.bindings s = none →
        eval (.symbol s) env =
          .error (.reason ("unbound symbol: ".toList ++ s))) ∧
    (∀ (env : Env) (fn : NativeFn) (f : Expr) (es1 : List Expr) (e : Expr)
        (es2 : List Expr) (err : Error),
        eval f env = .ok (.func fn) →
        (∀ x ∈ es1, ∃ v, eval x env = .ok v) →
        eval e env = .error err →
        eval (.list (f :: (es1 ++ e :: es2))) env = .error err) := by
  refine ⟨?_, ?_, ?_, ?_⟩
  · intro env f rest err hf
    simp [eval, hf]
  · intro env f rest v hf hv
    match v, hv with
    | Expr.number n, _ => simp [eval, hf]
    | Expr.symbol s, _ => simp [eval, hf]
    | Expr.list l, _ => simp [eval, hf]
    | Expr.func fn, hv => exact absurd rfl (hv fn)
  · intro env s h
    simp [eval, h]
  · intro env fn f es1 e es2 err hf hok he
    simp [eval, hf, evalArgs_error es1 e es2 env err hok he]

/-- C2 witness: in `(+ 1 y z)` with `y` and `z` unbound, the error of
`y` (the leftmost failing argument) is the call's result. -/
theorem eval_call_spec_witness :
    eval (.list [.symbol "+".toList, .number (F.ofInt 1),
        .symbol "y".toList, .symbol "z".toList]) default_env =
      .error (.reason "unbound symbol: y".toList) := by
  have h := eval_call_spec.2.2.2 default_env .add (.symbol "+".toList)
    [.number (F.ofInt 1)] (.symbol "y".toList) [.symbol "z".toList]
    (.reason "unbound symbol: y".toList) rfl
    (by
      intro x hx
      rcases List.mem_singleton.mp hx with rfl
      exact ⟨_, rfl⟩)
    rfl
  simpa using h

end Imi

namespace Imi

/-- Progress of the fueled parser: a successful parse (of one
expression, or of a list tail) consumes at least one token, and the
remainder is a suffix of the input. -/
theorem parse_progress_both (fuel : Nat) :
    (∀ ts e rest, parseF fuel ts = .ok (e, rest) →
      rest.length < ts.length ∧ rest <:+ ts) ∧
    (∀ ts l rest, readListF fuel ts = .ok (l, rest) →
      rest.length < ts.length ∧ rest <:+ ts) := by
  induction fuel with
  | zero =>
    refine ⟨?_, ?_⟩ <;> intro ts a rest h <;> simp [parseF, readListF] at h
  | succ n ih =>
    obtain ⟨ihp, ihr⟩ := ih
    refine ⟨?_, ?_⟩
    · intro ts e rest h
      match ts with
      | [] => simp [parseF] at h
      | t :: ts0 =>
        simp only [parseF] at h
        split at h
        · cases hrl : readListF n ts0 with
          | ok p =>
            obtain ⟨l, r⟩ := p
            simp only [hrl] at h
            cases h
            obtain ⟨hlen, hsuf⟩ := ihr _ _ _ hrl
            exact ⟨Nat.lt_trans hlen (Nat.lt_succ_self _),
              hsuf.trans (List.suffix_cons _ _)⟩
          | error e0 =>
            simp only [hrl] at h
            exact Except.noConfusion h
        · split at h
          · exact Except.noConfusion h
          · cases h
            exact ⟨Nat.lt_succ_self _, List.suffix_cons _ _⟩
    · intro ts l rest h
      match ts with
      | [] => simp [readListF] at h
      | t :: ts0 =>
        simp only [readListF] at h
        split at h
        · cases h
          exact ⟨Nat.lt_succ_self _, List.suffix_cons _ _⟩
        · cases hp : parseF n (t :: ts0) with
          | ok p =>
            obtain ⟨e1, rest1⟩ := p
            simp only [hp] at h
            cases hrl : readListF n rest1 with
            | ok q =>
              obtain ⟨l2, rest2⟩ := q
              simp only [hrl] at h
              cases h
              obtain ⟨hlen1, hsuf1⟩ := ihp _ _ _ hp
              obtain ⟨hlen2, hsuf2⟩ := ihr _ _ _ hrl
              exact ⟨Nat.lt_trans hlen2 hlen1, hsuf2.trans hsuf1⟩
            | error e0 =>
              simp only [hrl] at h
              exact Except.noConfusion h
          | error e0 =>
            simp only [hp] at h
            exact Except.noConfusion h

end Imi

namespace Imi

/-- Fuel monotonicity: once the fueled parser returns anything other
than the fuel-exhaustion error, more fuel does not change the result. -/
theorem parse_mono_both (fuel : Nat) :
    (∀ ts, parseF fuel ts ≠ .error fuelReason →
      parseF (fuel + 1) ts = parseF fuel ts) ∧
    (∀ ts, readListF fuel ts ≠ .error fuelReason →
      readListF (fuel + 1) ts = readListF fuel ts) := by
  induction fuel with
  | zero =>
    refine ⟨?_, ?_⟩ <;> intro ts h <;> exact absurd rfl h
  | succ n ih =>
    obtain ⟨ihp, ihr⟩ := ih
    refine ⟨?_, ?_⟩
    · intro ts hne
      match ts with
      | [] => rfl
      | t :: ts0 =>
        by_cases ht : t = ['(']
        · subst ht
          cases hrl : readListF n ts0 with
          | ok p =>
            have hsub : readListF n ts0 ≠ .error fuelReason := by
              rw [hrl]; exact fun hh => Except.noConfusion hh
            simp [parseF, ihr ts0 hsub, hrl]
          | error e0 =>
            have hcur : parseF (n + 1) (['('] :: ts0) = .error e0 := by
              simp [parseF, hrl]
            have he0 : e0 ≠ fuelReason :=
              fun hh => hne (hcur.trans (by rw [hh]))
            have hsub : readListF n ts0 ≠ .error fuelReason := by
              rw [hrl]; exact fun hh => he0 (Except.error.inj hh)
            simp [parseF, ihr ts0 hsub, hrl]
        · by_cases ht2 : t = [')']
          · subst ht2; simp [parseF, ht]
          · simp [parseF, ht, ht2]
    · intro ts hne
      match ts with
      | [] => rfl
      | t :: ts0 =>
        by_cases ht : t = [')']
        · subst ht; simp [readListF]
        · cases hp : parseF n (t :: ts0) with
          | ok p =>
            obtain ⟨e1, rest1⟩ := p
            have hsubp : parseF n (t :: ts0) ≠ .error fuelReason := by
              rw [hp]; exact fun hh => Except.noConfusion hh
            cases hrl : readListF n rest1 with
            | ok q =>
              have hsubr : readListF n rest1 ≠ .error fuelReason := by
                rw [hrl]; exact fun hh => Except.noConfusion hh
              simp [readListF, ht, ihp _ hsubp, ihr _ hsubr, hp, hrl]
            | error err0 =>
              have hcur : readListF (n + 1) (t :: ts0) = .error err0 := by
                simp [readListF, ht, hp, hrl]
              have he0 : err0 ≠ fuelReason :=
                fun hh => hne (hcur.trans (by rw [hh]))
              have hsubr : readListF n rest1 ≠ .error fuelReason := by
                rw [hrl]; exact fun hh => he0 (Except.error.inj hh)
              simp [readListF, ht, ihp _ hsubp, ihr _ hsubr, hp, hrl]
          | error e0 =>
            have hcur : readListF (n + 1) (t :: ts0) = .error e0 := by
              simp [readListF, ht, hp]
            have he0 : e0 ≠ fuelReason :=
              fun hh => hne (hcur.trans (by rw [hh]))
            have hsubp : parseF n (t :: ts0) ≠ .error fuelReason := by
              rw [hp]; exact fun hh => he0 (Except.error.inj hh)
            simp [readListF, ht, ihp _ hsubp, hp]

end Imi

namespace Imi

/-- Fuel monotonicity extended along `≤` for `parseF`. -/
theorem parseF_mono_le {f1 f2 : Nat} (h : f1 ≤ f2) (ts : List (List Char))
    (hne : parseF f1 ts ≠ .error fuelReason) : parseF f2 ts = parseF f1 ts := by
  induction h with
  | refl => rfl
  | @step m h2 ih =>
    have hne2 : parseF m ts ≠ .error fuelReason := by rw [ih]; exact hne
    rw [(parse_mono_both m).1 ts hne2, ih]

/-- Fuel sufficiency: with fuel `2 * length + 1` (resp. `+ 2`) the
fueled parser never reports fuel exhaustion, so the `parse` wrapper
computes the Rust function. -/
theorem parse_suff_both (fuel : Nat) :
    (∀ ts, 2 * ts.length + 1 ≤ fuel → parseF fuel ts ≠ .error fuelReason) ∧
    (∀ ts, 2 * ts.length + 2 ≤ fuel → readListF fuel ts ≠ .error fuelReason) := by
  induction fuel with
  | zero => exact ⟨fun ts hle => by omega, fun ts hle => by omega⟩
  | succ n ih =>
    obtain ⟨ihp, ihr⟩ := ih
    refine ⟨?_, ?_⟩
    · intro ts hle
      match ts with
      | [] =>
        intro hh
        exact absurd (Except.error.inj hh) (by decide)
      | t :: ts0 =>
        by_cases ht : t = ['(']
        · subst ht
          have hn : 2 * ts0.length + 2 ≤ n := by
            simp only [List.length_cons] at hle; omega
          cases hrl : readListF n ts0 with
          | ok p => simp [parseF, hrl]
          | error e0 =>
            simp [parseF, hrl]
            intro hh
            exact (ihr ts0 hn) (hrl.trans (by rw [hh]))
        · by_cases ht2 : t = [')']
          · subst ht2
            intro hh
            exact absurd (Except.error.inj hh) (by decide)
          · simp [parseF, ht, ht2]
    · intro ts hle
      match ts with
      | [] =>
        intro hh
        exact absurd (Except.error.inj hh) (by decide)
      | t :: ts0 =>
        by_cases ht : t = [')']
        · subst ht; simp [readListF]
        · have hn : 2 * ts0.length + 3 ≤ n := by
            simp only [List.length_cons] at hle; omega
          have hnp : 2 * (t :: ts0).length + 1 ≤ n := by
            simp only [List.length_cons]; omega
          cases hp : parseF n (t :: ts0) with
          | ok p =>
            obtain ⟨e1, rest1⟩ := p
            have hlen : rest1.length < (t :: ts0).length :=
              ((parse_progress_both n).1 _ _ _ hp).1
            have hnr : 2 * rest1.length + 2 ≤ n := by
              simp only [List.length_cons] at hlen; omega
            cases hrl : readListF n rest1 with
            | ok q => simp [readListF, ht, hp, hrl]
            | error err0 =>
              simp [readListF, ht, hp, hrl]
              intro hh
              exact (ihr rest1 hnr) (hrl.trans (by rw [hh]))
          | error e0 =>
            simp [readListF, ht, hp]
            intro hh
            exact (ihp (t :: ts0) hnp) (hp.trans (by rw [hh]))

end Imi

namespace Imi

/-- Appending tokens after input the parser succeeds on does not change
what it parses: the extra tokens come back in the remainder. -/
theorem parse_append_both (fuel : Nat) :
    (∀ ts e rest ext, parseF fuel ts = .ok (e, rest) →
      parseF fuel (ts ++ ext) = .ok (e, rest ++ ext)) ∧
    (∀ ts l rest ext, readListF fuel ts = .ok (l, rest) →
      readListF fuel (ts ++ ext) = .ok (l, rest ++ ext)) := by
  induction fuel with
  | zero =>
    refine ⟨?_, ?_⟩ <;> intro ts a rest ext h <;> exact Except.noConfusion h
  | succ n ih =>
    obtain ⟨ihp, ihr⟩ := ih
    refine ⟨?_, ?_⟩
    · intro ts e rest ext h
      match ts with
      | [] => exact Except.noConfusion h
      | t :: ts0 =>
        by_cases ht : t = ['(']
        · subst ht
          cases hrl : readListF n ts0 with
          | ok p =>
            obtain ⟨l, r⟩ := p
            simp [parseF, hrl] at h
            obtain ⟨he, hr⟩ := h
            subst he
            subst hr
            simp [parseF, ihr ts0 l r ext hrl]
          | error e0 =>
            simp [parseF, hrl] at h
        · by_cases ht2 : t = [')']
          · subst ht2
            exact Except.noConfusion h
          · simp [parseF, ht, ht2] at h
            obtain ⟨he, hr⟩ := h
            subst he
            subst hr
            simp [parseF, ht, ht2]
    · intro ts l rest ext h
      match ts with
      | [] => exact Except.noConfusion h
      | t :: ts0 =>
        by_cases ht : t = [')']
        · subst ht
          simp [readListF] at h
          obtain ⟨hl, hr⟩ := h
          subst hl
          subst hr
          simp [readListF]
        · cases hp : parseF n (t :: ts0) with
          | ok p =>
            obtain ⟨e1, rest1⟩ := p
            simp [readListF, ht, hp] at h
            cases hrl : readListF n rest1 with
            | ok q =>
              obtain ⟨l2, rest2⟩ := q
              rw [hrl] at h
              simp at h
              obtain ⟨hl, hr⟩ := h
              subst hl
              subst hr
              have hp2 : parseF n ((t :: ts0) ++ ext) = .ok (e1, rest1 ++ ext) :=
                ihp (t :: ts0) e1 rest1 ext hp
              have hrl2 : readListF n (rest1 ++ ext) = .ok (l2, rest2 ++ ext) :=
                ihr rest1 l2 rest2 ext hrl
              simp only [List.cons_append] at hp2
              simp [readListF, ht, hp2, hrl2]
            | error err0 =>
              rw [hrl] at h
              simp at h
          | error e0 =>
            simp [readListF, ht, hp] at h

end Imi

namespace Imi

/-- C5: parsing fails deterministically on malformed input: a leading
`)` fails with `unexpected )` whatever follows, the empty token
sequence fails with `empty input`, and the exhausted-list example
`(+ 1 2` fails with `could not parse list`. -/
theorem parse_malformed :
    (∀ ts : List (List Char),
        parse (")".toList :: ts) = .error (.reason "unexpected )".toList)) ∧
    parse [] = .error (.reason "empty input".toList) ∧
    parse (tokenize "(+ 1 2".toList) =
      .error (.reason "could not parse list".toList) ∧
    parse (tokenize ")".toList) = .error (.reason "unexpected )".toList) :=
  ⟨fun _ => rfl, rfl, rfl, rfl⟩

/-- C5 witness: the leading-`)` clause at a nonempty tail. -/
theorem parse_malformed_witness :
    parse [")".toList, "x".toList] = .error (.reason "unexpected )".toList) :=
  parse_malformed.1 ["x".toList]

/-- C10: a successful `parse` always consumes at least one token: the
remainder is a strict suffix of the input, so a driver looping on the
remainder terminates. -/
theorem parse_consumes (ts : List (List Char)) (e : Expr)
    (rest : List (List Char)) (h : parse ts = .ok (e, rest)) :
    rest.length < ts.length ∧ rest <:+ ts ∧ rest ≠ ts := by
  obtain ⟨hlen, hsuf⟩ := (parse_progress_both (2 * ts.length + 1)).1 ts e rest h
  exact ⟨hlen, hsuf, fun heq => absurd (heq ▸ hlen) (lt_irrefl _)⟩

/-- C10 witness: `parse` on the tokens of `(+ 1 2)` consumes all five
tokens, a strict suffix of the input. -/
theorem parse_consumes_witness :
    ([] : List (List Char)).length < (tokenize "(+ 1 2)".toList).length ∧
    ([] : List (List Char)) <:+ tokenize "(+ 1 2)".toList ∧
    ([] : List (List Char)) ≠ tokenize "(+ 1 2)".toList :=
  parse_consumes (tokenize "(+ 1 2)".toList)
    (.list [.symbol "+".toList, .number (F.ofInt 1), .number (F.ofInt 2)])
    [] rfl

/-- C8: `parse` consumes exactly one complete expression: tokens of a
complete expression followed by extra tokens parse to the same
expression with the extra tokens returned unconsumed. -/
theorem parse_returns_remainder (ts : List (List Char)) (e : Expr)
    (ext : List (List Char)) (h : parse ts = .ok (e, [])) :
    parse (ts ++ ext) = .ok (e, ext) := by
  have h1 : parseF (2 * ts.length + 1) ts = .ok (e, []) := h
  have hex := (parse_append_both (2 * ts.length + 1)).1 ts e [] ext h1
  rw [List.nil_append] at hex
  have hne : parseF (2 * ts.length + 1) (ts ++ ext) ≠ .error fuelReason := by
    rw [hex]; exact fun hh => Except.noConfusion hh
  have hle : 2 * ts.length + 1 ≤ 2 * (ts ++ ext).length + 1 := by
    rw [List.length_append]; omega
  show parseF (2 * (ts ++ ext).length + 1) (ts ++ ext) = .ok (e, ext)
  rw [parseF_mono_le hle (ts ++ ext) hne, hex]

/-- C8 witness: the tokens of `()` followed by the extra token `x`
parse to the empty List with `x` left over. -/
theorem parse_returns_remainder_witness :
    parse (tokenize "()".toList ++ ["x".toList]) = .ok (.list [], ["x".toList]) :=
  parse_returns_remainder (tokenize "()".toList) (.list []) ["x".toList] rfl

end Imi

namespace Imi

/-- Space is whitespace. -/
theorem ws_space : (' ').isWhitespace = true := by decide

/-- Opening parenthesis is not whitespace. -/
theorem ws_lparen : ('(').isWhitespace = false := by decide

/-- Closing parenthesis is not whitespace. -/
theorem ws_rparen : (')').isWhitespace = false := by decide

/-- Tokens produced by the whitespace splitter contain no whitespace,
provided the partially-built token does not either. -/
theorem splitWsAux_ws_free (cs : List Char) : ∀ acc : List Char,
    (∀ c ∈ acc, c.isWhitespace = false) →
    ∀ t ∈ splitWsAux cs acc, ∀ c ∈ t, c.isWhitespace = false := by
  induction cs with
  | nil =>
    intro acc hacc t ht c hc
    by_cases hae : acc.isEmpty
    · simp [splitWsAux, hae] at ht
    · simp [splitWsAux, hae] at ht
      subst ht
      exact hacc c (List.mem_reverse.mp hc)
  | cons d cs ih =>
    intro acc hacc t ht c hc
    cases hd : d.isWhitespace with
    | true =>
      by_cases hae : acc.isEmpty
      · simp [splitWsAux, hd, hae] at ht
        exact ih [] (by simp) t ht c hc
      · simp [splitWsAux, hd, hae] at ht
        rcases ht with ht | ht
        · subst ht
          exact hacc c (List.mem_reverse.mp hc)
        · exact ih [] (by simp) t ht c hc
    | false =>
      simp only [splitWsAux, hd, Bool.false_eq_true, if_false] at ht
      refine ih (d :: acc) ?_ t ht c hc
      intro c' hc'
      rcases List.mem_cons.mp hc' with rfl | hc'
      · exact hd
      · exact hacc c' hc'

end Imi

namespace Imi

/-- After space-padding, any token that contains a parenthesis is
exactly that single parenthesis (the padding guarantees whitespace on
both sides of every parenthesis). -/
theorem splitWsAux_pad_isolated (s : List Char) : ∀ acc : List Char,
    (∀ c ∈ acc, c ≠ '(' ∧ c ≠ ')') →
    ∀ t ∈ splitWsAux (pad s) acc, ('(' ∈ t ∨ ')' ∈ t) →
    t = ['('] ∨ t = [')'] := by
  induction s with
  | nil =>
    intro acc hacc t ht hpar
    by_cases hae : acc.isEmpty
    · simp [pad, splitWsAux, hae] at ht
    · simp [pad, splitWsAux, hae] at ht
      subst ht
      rcases hpar with hp | hp
      · exact absurd rfl (hacc _ (List.mem_reverse.mp hp)).1
      · exact absurd rfl (hacc _ (List.mem_reverse.mp hp)).2
  | cons d s ih =>
    intro acc hacc t ht hpar
    by_cases hd1 : d = '('
    · subst hd1
      by_cases hae : acc.isEmpty
      · simp [pad, padChar, splitWsAux, ws_space, ws_lparen, hae] at ht
        rcases ht with ht | ht
        · subst ht; left; rfl
        · exact ih [] (by simp) t ht hpar
      · simp [pad, padChar, splitWsAux, ws_space, ws_lparen, hae] at ht
        rcases ht with ht | ht | ht
        · subst ht
          rcases hpar with hp | hp
          · exact absurd rfl (hacc _ (List.mem_reverse.mp hp)).1
          · exact absurd rfl (hacc _ (List.mem_reverse.mp hp)).2
        · subst ht; left; rfl
        · exact ih [] (by simp) t ht hpar
    · by_cases hd2 : d = ')'
      · subst hd2
        by_cases hae : acc.isEmpty
        · simp [pad, padChar, splitWsAux, ws_space, ws_rparen, hae] at ht
          rcases ht with ht | ht
          · subst ht; right; rfl
          · exact ih [] (by simp) t ht hpar
        · simp [pad, padChar, splitWsAux, ws_space, ws_rparen, hae] at ht
          rcases ht with ht | ht | ht
          · subst ht
            rcases hpar with hp | hp
            · exact absurd rfl (hacc _ (List.mem_reverse.mp hp)).1
            · exact absurd rfl (hacc _ (List.mem_reverse.mp hp)).2
          · subst ht; right; rfl
          · exact ih [] (by simp) t ht hpar
      · cases hd : d.isWhitespace with
        | true =>
          by_cases hae : acc.isEmpty
          · simp [pad, padChar, splitWsAux, hd1, hd2, hd, hae] at ht
            exact ih [] (by simp) t ht hpar
          · simp [pad, padChar, splitWsAux, hd1, hd2, hd, hae] at ht
            rcases ht with ht | ht
            · subst ht
              rcases hpar with hp | hp
              · exact absurd rfl (hacc _ (List.mem_reverse.mp hp)).1
              · exact absurd rfl (hacc _ (List.mem_reverse.mp hp)).2
            · exact ih [] (by simp) t ht hpar
        | false =>
          simp only [pad, padChar, if_neg hd1, if_neg hd2, List.cons_append,
            List.nil_append, splitWsAux, hd, Bool.false_eq_true, if_false] at ht
          refine ih (d :: acc) ?_ t ht hpar
          intro c' hc'
          rcases List.mem_cons.mp hc' with rfl | hc'
          · exact ⟨hd1, hd2⟩
          · exact hacc c' hc'

end Imi

namespace Imi

/-- A token flushed from a parenthesis-free accumulator is not a
parenthesis token. -/
theorem rev_ne_paren (acc : List Char)
    (hacc : ∀ c ∈ acc, c ≠ '(' ∧ c ≠ ')') :
    acc.reverse ≠ ['('] ∧ acc.reverse ≠ [')'] := by
  constructor <;> intro hh
  · refine (hacc '(' ?_).1 rfl
    rw [← List.mem_reverse, hh]
    exact List.Mem.head _
  · refine (hacc ')' ?_).2 rfl
    rw [← List.mem_reverse, hh]
    exact List.Mem.head _

/-- Tokenization drops no parenthesis: the number of `(` tokens (resp.
`)` tokens) equals the number of `(` (resp. `)`) characters of the
input. -/
theorem splitWsAux_pad_count (s : List Char) : ∀ acc : List Char,
    (∀ c ∈ acc, c ≠ '(' ∧ c ≠ ')') →
    (splitWsAux (pad s) acc).count ['('] = s.count '(' ∧
    (splitWsAux (pad s) acc).count [')'] = s.count ')' := by
  induction s with
  | nil =>
    intro acc hacc
    obtain ⟨hne1, hne2⟩ := rev_ne_paren acc hacc
    by_cases hae : acc.isEmpty
    · simp [pad, splitWsAux, hae]
    · simp [pad, splitWsAux, hae, List.count_cons, hne1, hne2]
  | cons d s ih =>
    intro acc hacc
    obtain ⟨hne1, hne2⟩ := rev_ne_paren acc hacc
    obtain ⟨ih1, ih2⟩ := ih [] (by simp)
    by_cases hd1 : d = '('
    · subst hd1
      by_cases hae : acc.isEmpty
      · simp [pad, padChar, splitWsAux, ws_space, ws_lparen, hae,
          List.count_cons, ih1, ih2]
      · simp [pad, padChar, splitWsAux, ws_space, ws_lparen, hae,
          List.count_cons, hne1, hne2, ih1, ih2]
    · by_cases hd2 : d = ')'
      · subst hd2
        by_cases hae : acc.isEmpty
        · simp [pad, padChar, splitWsAux, ws_space, ws_rparen, hae,
            List.count_cons, ih1, ih2]
        · simp [pad, padChar, splitWsAux, ws_space, ws_rparen, hae,
            List.count_cons, hne1, hne2, ih1, ih2]
      · cases hd : d.isWhitespace with
        | true =>
          by_cases hae : acc.isEmpty
          · simp [pad, padChar, splitWsAux, hd1, hd2, hd, hae,
              List.count_cons, ih1, ih2]
          · simp [pad, padChar, splitWsAux, hd1, hd2, hd, hae,
              List.count_cons, hne1, hne2, ih1, ih2]
        | false =>
          obtain ⟨ih1b, ih2b⟩ := ih (d :: acc) (by
            intro c' hc'
            rcases List.mem_cons.mp hc' with rfl | hc'
            · exact ⟨hd1, hd2⟩
            · exact hacc c' hc')
          simp only [pad, padChar, if_neg hd1, if_neg hd2, List.cons_append,
            List.nil_append, splitWsAux, hd, Bool.false_eq_true, if_false]
          simp [List.count_cons, hd1, hd2, ih1b, ih2b]

end Imi

namespace Imi

/-- C6: `tokenize` is total by construction and maps the empty string to
the empty token sequence; no output token contains whitespace; every
token containing a parenthesis is exactly that single-character
parenthesis token, and no parenthesis is dropped (token counts match
character counts); and `tokenize "(+ 1 2)"` is `( + 1 2 )`. -/
theorem tokenize_spec :
    tokenize [] = [] ∧
    (∀ s : List Char, ∀ t ∈ tokenize s, ∀ c ∈ t, c.isWhitespace = false) ∧
    (∀ s : List Char, ∀ t ∈ tokenize s, ('(' ∈ t ∨ ')' ∈ t) →
      t = ['('] ∨ t = [')']) ∧
    (∀ s : List Char, (tokenize s).count ['('] = s.count '(' ∧
      (tokenize s).count [')'] = s.count ')') ∧
    tokenize "(+ 1 2)".toList =
      ["(".toList, "+".toList, "1".toList, "2".toList, ")".toList] :=
  ⟨rfl,
   fun s t ht c hc => splitWsAux_ws_free (pad s) [] (by simp) t ht c hc,
   fun s t ht hpar => splitWsAux_pad_isolated s [] (by simp) t ht hpar,
   fun s => splitWsAux_pad_count s [] (by simp),
   rfl⟩

/-- C6 witness: on the input `(`, the single token produced is
whitespace-free and is the isolated `(` token. -/
theorem tokenize_spec_witness :
    (∀ c ∈ (['('] : List Char), c.isWhitespace = false) ∧
    ((['('] : List Char) = ['('] ∨ (['('] : List Char) = [')']) :=
  ⟨tokenize_spec.2.1 "(".toList ['('] (List.Mem.head _),
   tokenize_spec.2.2.1 "(".toList ['('] (List.Mem.head _)
     (Or.inl (List.Mem.head _))⟩

end Imi
